import Mathlib

/-!
Verification of the computational core of micapipe functions/03_FC.py
(functional-connectome generation and confound regression).

Timeseries matrices are embedded column-major: a matrix with T timepoints
is a list of columns, each column a function from Fin T to the rationals.
Rational numbers stand in for IEEE floats; all source arithmetic used here
is exact on the chosen inputs. Python values that can be either strings or
integers (the command-line flags compared with == against literals of both
types in the source) are embedded as an explicit sum type with the Python
cross-type equality semantics.
-/

namespace FC

/-- Column of a timeseries matrix: one value per timepoint. -/
abbrev Col (T : ℕ) := Fin T → ℚ

/-- Matrix as a list of columns sharing the timepoint count T. -/
abbrev Mat (T : ℕ) := List (Col T)

/-- Embedding of a dynamically typed Python scalar as it occurs in the
script: the command-line flags arrive as strings from sys.argv, while the
source compares them against both string and integer literals. -/
inductive PyVal where
  | str (s : String) : PyVal
  | int (n : ℤ) : PyVal
deriving DecidableEq

/-- Python equality between dynamically typed scalars: values of different
types compare unequal, same-typed values compare by value. -/
def pyEq : PyVal → PyVal → Bool
  | .str a, .str b => a == b
  | .int a, .int b => a == b
  | _, _ => false

/-- Column of ones (np.ones of the shared timepoint count). -/
def onesCol (T : ℕ) : Col T := fun _ => 1

/-- The one-column intercept matrix np.ones((T, 1)). -/
def ones (T : ℕ) : Mat T := [onesCol T]

/-- Design-matrix assembly of get_regressed_data, lines 204-232 of
03_FC.py: the nested if chain over spike-file presence and the two flag
values, with np.append(axis=1) embedded as column-list concatenation.
The spike branch compares the flags against the string "1" while the
no-spike branch compares them against the integer 1, exactly as the
source does. -/
def assembleDesign {T : ℕ} (spikePresent : Bool)
    (spike dof wm csf gs : Mat T) (performNSR performGSR : PyVal) : Mat T :=
  if spikePresent then
    if pyEq performNSR (.str "1") then ones T ++ spike ++ dof ++ wm ++ csf
    else if pyEq performGSR (.str "1") then ones T ++ spike ++ dof ++ wm ++ csf ++ gs
    else ones T ++ spike
  else
    if pyEq performNSR (.int 1) then ones T ++ dof ++ wm ++ csf
    else if pyEq performGSR (.int 1) then ones T ++ dof ++ wm ++ csf ++ gs
    else ones T

/-- The design matrix built by get_regressed_data for a given spike file
path: the source tests spike presence with the truthiness of the glob
result string x_spike. -/
def designOf {T : ℕ} (x_spike : String) (performNSR performGSR : PyVal)
    (spike dof wm csf gs : Mat T) : Mat T :=
  assembleDesign (!(x_spike == "")) spike dof wm csf gs performNSR performGSR

/-- Linear combination of the design columns with one coefficient row:
entry i of mdl times coef row, the column (mdl . coef_row) of np.dot. -/
def lincomb {T : ℕ} (row : List ℚ) (cols : Mat T) : Col T :=
  fun i => (List.zipWith (fun c v => c * v i) row cols).sum

/-- The product mdl . coef.T of the source, column per coefficient row. -/
def matMulCoefT {T : ℕ} (mdl : Mat T) (coef : List (List ℚ)) : Mat T :=
  coef.map (fun row => lincomb row mdl)

/-- Elementwise matrix difference Data - (mdl . coef.T). -/
def matSub {T : ℕ} (A B : Mat T) : Mat T :=
  List.zipWith (fun a b => fun i => a i - b i) A B

/-- Embedding of get_regressed_data (03_FC.py lines 173-235) together with
its inner check_arrays: build the design matrix from the flag values and
spike-file presence, and if the design equals the bare intercept column
(np.array_equal(mdl, ones)) return Data unchanged, otherwise return
Data - mdl . coef.T where coef is produced by the least-squares fitter.
The sklearn fit itself is numerical, so it enters as the oracle parameter
fit; theorems that depend on its output constrain it with IsSklearnFit. -/
def get_regressed_data {T : ℕ} (x_spike : String) (Data : Mat T)
    (performNSR performGSR : PyVal) (spike dof wm csf gs : Mat T)
    (fit : Mat T → Mat T → List (List ℚ)) : Mat T :=
  if designOf x_spike performNSR performGSR spike dof wm csf gs = ones T then Data
  else matSub Data
    (matMulCoefT (designOf x_spike performNSR performGSR spike dof wm csf gs)
      (fit (designOf x_spike performNSR performGSR spike dof wm csf gs) Data))

/-- Sum of a column over all timepoints. -/
def colSum {T : ℕ} (x : Col T) : ℚ := ∑ i, x i

/-- Mean of a column over the timepoints (np.mean along axis 0). -/
def colMean {T : ℕ} (x : Col T) : ℚ := colSum x / T

/-- Mean-centering of one column, as sklearn LinearRegression performs on
both the design and the targets before solving. -/
def center {T : ℕ} (x : Col T) : Col T := fun i => x i - colMean x

/-- Dot product of two columns over the timepoints. -/
def dot {T : ℕ} (x y : Col T) : ℚ := ∑ i, x i * y i

/-- Specification of the coefficient matrix coef_ returned by sklearn
LinearRegression().fit(mdl, Data) with the default fit_intercept=True, in
exact arithmetic: one coefficient row per target column, each row solving
the least-squares problem on mean-centered design and target (the centered
normal equations) and lying in the row space of the centered design, which
pins the minimum-norm solution that the lstsq solver returns. The
intercept_ attribute is never read by the source, so it is not modelled. -/
def IsSklearnFit {T : ℕ} (mdl Data : Mat T) (coef : List (List ℚ)) : Prop :=
  coef.length = Data.length ∧
  ∀ k row yk, coef.get? k = some row → Data.get? k = some yk →
    ((∀ x ∈ mdl,
        dot (center x) (fun i => center yk i - lincomb row (mdl.map center) i) = 0) ∧
     ∃ w : Col T, row = mdl.map (fun x => dot (center x) w))

/-- Embedding of missing_elements (03_FC.py lines 132-134): the ascending
list of canonical cerebellar indices 0..33 that do not occur in the given
0-based label list, sorted(set(range(0, 34)).difference(roiList)). -/
def missing_elements (roiList : List ℤ) : List ℕ :=
  (List.range 34).filter (fun x => decide ((x : ℤ) ∉ roiList))

/-- Truncation toward zero of a rational, the behavior of the Python int
conversion applied to a float value. -/
def ratTrunc (q : ℚ) : ℤ := q.num.tdiv q.den

/-- Wrap an integer into the int8 range -128..127, the effect of storing
an out-of-range value into a numpy array of dtype int8. -/
def int8wrap (n : ℤ) : ℤ := (n + 128) % 256 - 128

/-- Value actually stored when a float is assigned into an int8 numpy
array: truncation toward zero followed by the int8 wrap-around. -/
def toInt8 (q : ℚ) : ℚ := ((int8wrap (ratTrunc q) : ℤ) : ℚ)

/-- Columnwise int8 cast, the elementwise effect of assigning a float
column into a column of an int8 array. -/
def int8Col {T : ℕ} (c : Col T) : Col T := fun i => toInt8 (c i)

/-- Numpy column assignment M[:, idx] = c with the Python negative-index
convention; out-of-range indices leave the matrix unchanged here (the
source would raise, and no claim exercises that case). -/
def setCol {T : ℕ} (M : Mat T) (idx : ℤ) (c : Col T) : Mat T :=
  let j : ℤ := if idx < 0 then idx + M.length else idx
  if 0 ≤ j ∧ j < M.length then M.set j.toNat c else M

/-- Sentinel carried by exclude_labels in the source: the list [np.nan]
when all 34 cerebellar labels survived co-registration, or the list of
missing 0-based indices otherwise; downstream code distinguishes the two
by np.isnan(exclude_labels[0]). -/
inductive ExcludeLabels where
  | noneMissing : ExcludeLabels
  | missing (l : List ℕ) : ExcludeLabels
deriving DecidableEq

/-- Embedding of the cerebellar label reconciliation (03_FC.py lines
136-150). If exactly 34 labels parsed, the timeseries passes through with
the nan sentinel. Otherwise the source allocates np.zeros((T, 34)) with
dtype int8, converts each parsed label with int(float(label)) into an
int8 array, subtracts 1 (int8 arithmetic), scatters each input column to
its target index with the int8 value cast, and records the missing index
list. -/
def cereb_recon {T : ℕ} (cereb_tmp : Mat T) (roiLabels : List ℚ) :
    Mat T × ExcludeLabels :=
  if roiLabels.length = 34 then (cereb_tmp, ExcludeLabels.noneMissing)
  else
    let roiLabelsInt : List ℤ := roiLabels.map (fun q => int8wrap (ratTrunc q))
    let roiIdx : List ℤ := roiLabelsInt.map (fun z => int8wrap (z - 1))
    let base : Mat T := List.replicate 34 (fun _ => 0)
    let cereb := (List.zip roiIdx cereb_tmp).foldl
      (fun M p => setCol M p.1 (int8Col p.2)) base
    (cereb, ExcludeLabels.missing (missing_elements roiIdx))

/-- Single cerebellar input column holding the non-integer value 5/2. -/
def c3Col : Col 1 := fun _ => (5 : ℚ) / 2

/-- Insert a rational into an ascending list, keeping it ascending. -/
def insertSorted (q : ℚ) : List ℚ → List ℚ
  | [] => [q]
  | x :: xs => if q ≤ x then q :: x :: xs else x :: insertSorted q xs

/-- Embedding of np.unique: the ascending list of distinct values of the
parcellation array. -/
def np_unique (l : List ℚ) : List ℚ := l.dedup.foldr insertSorted []

/-- Columns of Data at the positions where the parcellation array equals
the value v, the boolean-mask selection Data[:, thisparc == v]. -/
def selectCols {T : ℕ} (Data : Mat T) (parc : List ℚ) (v : ℚ) : Mat T :=
  (List.zip parc Data).filterMap (fun pc => if pc.1 = v then some pc.2 else none)

/-- Per-timepoint mean over a list of columns, np.mean(tmpData, axis=1).
On an empty selection the rational division by zero yields the zero
column where numpy would emit NaN; every use below keeps the claimed and
computed values apart under either reading. -/
def np_mean_cols {T : ℕ} (cols : Mat T) : Col T :=
  fun i => (cols.map (fun c => c i)).sum / cols.length

/-- Embedding of the conte69 parcellate step (03_FC.py lines 269-273):
for lab in range(len(uparcel)), column lab of ts_ctx is the mean of the
cortical columns selected by the mask thisparc == lab, where lab is the
loop index, exactly as the source writes it. -/
def ts_ctx {T : ℕ} (Data : Mat T) (parc : List ℚ) : Mat T :=
  List.map (fun lab : ℕ => np_mean_cols (selectCols Data parc (lab : ℚ)))
    (List.range (np_unique parc).length)

/-- Parcellation labels 0 and 2: distinct unique values that are not the
contiguous range starting at 0. -/
def c4Parc : List ℚ := [0, 2]

/-- Two cortical columns, constant 3 under label 0 and constant 7 under
label 2. -/
def c4Data : Mat 1 := [fun _ => 3, fun _ => 7]

/-- Parcellation labels 0 and 1: the contiguous case. -/
def w4Parc : List ℚ := [0, 1]

/-- Two cortical columns for the contiguous-label witness. -/
def w4Data : Mat 1 := [fun _ => 3, fun _ => 9]

/-- Concrete confound columns for evaluating the regressor branches. -/
def c1Dof : Mat 1 := [fun _ => 2]

def c1Wm : Mat 1 := [fun _ => 3]

def c1Csf : Mat 1 := [fun _ => 4]

def c1Gs : Mat 1 := [fun _ => 5]

def c1Data : Mat 1 := [fun _ => 7]

/-- Square connectivity matrix over n concatenated regions. -/
abbrev SqMat (n : ℕ) := Fin n → Fin n → ℚ

/-- Zero out one row and one column of a connectivity matrix, the pair of
assignments ts_r[:, j] = 0 and ts_r[j, :] = 0 in the source. -/
def zeroRowCol {n : ℕ} (M : SqMat n) (j : ℕ) : SqMat n :=
  fun r c => if (r : ℕ) = j ∨ (c : ℕ) = j then 0 else M r c

/-- The zeroing loop over exclude_labels (03_FC.py lines 279-281 and
367-369): each missing index i clears row and column i + n_sctx. -/
def apply_exclusion {n : ℕ} (excl : List ℕ) (n_sctx : ℕ) (M : SqMat n) : SqMat n :=
  excl.foldl (fun A i => zeroRowCol A (i + n_sctx)) M

/-- Embedding of np.triu with the default diagonal: entries strictly
below the main diagonal become zero, the rest are kept. -/
def np_triu {n : ℕ} (M : SqMat n) : SqMat n :=
  fun r c => if (r : ℕ) ≤ (c : ℕ) then M r c else 0

/-- The post-correlation step applied to every connectivity matrix before
it is saved (03_FC.py lines 278-284 and 366-372): when exclude_labels is
the nan sentinel only np.triu is applied, otherwise the missing rows and
columns are cleared first and np.triu is applied afterwards. -/
def postprocess {n : ℕ} (excl : ExcludeLabels) (n_sctx : ℕ) (M : SqMat n) : SqMat n :=
  match excl with
  | .noneMissing => np_triu M
  | .missing l => np_triu (apply_exclusion l n_sctx M)

/-- Control flow of the conte69 connectome loop (03_FC.py lines 257-290):
the explicitly unsupported parcellation name hits continue, every other
parcellation in the list produces its output. The per-parcellation
computation is abstracted as the function compute. -/
def conte69_outputs {α : Type} (compute : String → α) (parcs : List String) :
    List (String × α) :=
  parcs.filterMap
    (fun p => if p = "aparc-a2009s_conte69" then none else some (p, compute p))

/-- Control flow of the native connectome loop (03_FC.py lines 334-378):
each parcellation comes with the combined annotation label length, and a
mismatch with the native timeseries column count prints an error and
skips only that parcellation. -/
def native_outputs {α : Type} (natCols : ℕ) (compute : String → α)
    (annots : List (String × ℕ)) : List (String × α) :=
  annots.filterMap
    (fun pa => if natCols ≠ pa.2 then none else some (pa.1, compute pa.1))

/-- Outcome of the subcortical timeseries check at 03_FC.py lines
114-119. -/
inductive SctxOutcome where
  | diagnosticExit : SctxOutcome
  | indexErrorCrash : SctxOutcome
  | proceed (n_sctx : ℕ) : SctxOutcome
deriving DecidableEq

/-- Embedding of the check if sctx.shape: the shape tuple is truthy
exactly when non-empty; the truthy branch reads sctx.shape[1], raising
IndexError when the tuple has fewer than two entries; the falsy branch
prints the empty-file diagnostic and exits. -/
def sctx_check (shape : List ℕ) : SctxOutcome :=
  if shape ≠ [] then
    match shape.get? 1 with
    | some k => SctxOutcome.proceed k
    | none => SctxOutcome.indexErrorCrash
  else SctxOutcome.diagnosticExit

/-- Shape of the array np.loadtxt returns for a whitespace text matrix
with the given row and column counts: an empty file yields shape (0,),
a single scalar yields the 0-d shape (), a single row or single column
is squeezed to one dimension, and anything else keeps two dimensions. -/
def loadtxt_shape (rows cols : ℕ) : List ℕ :=
  if rows = 0 then [0]
  else if rows = 1 ∧ cols = 1 then []
  else if rows = 1 then [cols]
  else if cols = 1 then [rows]
  else [rows, cols]

/-- Spike-regressor column flagging the first of two timepoints. -/
def c5SpikeCol : Col 2 := fun i => if i = 0 then 1 else 0

/-- One-column spike matrix for the concrete regression. -/
def c5Spike : Mat 2 := [c5SpikeCol]

/-- Zero confound matrix standing in for dof, wm, csf and gs, which the
default spike model never touches. -/
def c5Zero : Mat 2 := [fun _ => 0]

/-- Concrete data: one constant column of value 1 over two timepoints. -/
def c5Data : Mat 2 := [fun _ => 1]

/-- The fitter output sklearn produces on this input: both centered
coefficients vanish because the centered target is zero, and the
minimum-norm tie-break zeroes the intercept-column coefficient. -/
def c5Fit : Mat 2 → Mat 2 → List (List ℚ) := fun _ _ => [[0, 0]]

/-- The design matrix assembled for the concrete spike-only model. -/
def c5Mdl : Mat 2 :=
  designOf "spikeRegressors_FD.1D" (PyVal.str "0") (PyVal.str "0")
    c5Spike c5Zero c5Zero c5Zero c5Zero

/-- The residual column the source computes on this input: the data
column minus the zero linear combination, so the constant 1 column. -/
def c5Rk : Col 2 := fun i => c5Data.headI i - lincomb [0, 0] c5Mdl i

/-- C3: scatter is not value-preserving. With one parsed label (fewer than
34) and input value 5/2, the source stores the column into a dtype int8
zero matrix, so the scattered value becomes 2: the output has 34 columns
and the missing set is the complement as claimed, but the present column
is truncated, contradicting the value-preservation clause. -/
theorem c3_int8_truncation_bug :
    (cereb_recon [c3Col] [1]).1.get? 0 = some (fun _ => (2 : ℚ)) ∧
    (cereb_recon [c3Col] [1]).1.length = 34 ∧
    (cereb_recon [c3Col] [1]).2 = ExcludeLabels.missing (missing_elements [0]) ∧
    c3Col 0 = (5 : ℚ) / 2 ∧
    (2 : ℚ) ≠ (5 : ℚ) / 2 := by
  refine ⟨?_, by decide, by decide, rfl, by norm_num⟩
  show some (int8Col c3Col) = some (fun _ => (2 : ℚ))
  have : int8Col c3Col = fun _ => (2 : ℚ) := by
    funext i
    show toInt8 ((5 : ℚ) / 2) = 2
    have ht : Int.tdiv 5 2 = 2 := by decide
    norm_num [toInt8, ratTrunc, int8wrap, ht]
  rw [this]

/-- C4 counterexample: with labels 0 and 2, the second unique label is 2,
but the source masks with the loop index 1, selecting no column at all,
so the produced regional column is not the mean of the label-2 group
(the constant-7 column). -/
theorem c4_counterexample :
    (np_unique c4Parc).get? 1 = some 2 ∧
    (ts_ctx c4Data c4Parc).get? 1
      = some (np_mean_cols (selectCols c4Data c4Parc ((1 : ℕ) : ℚ))) ∧
    selectCols c4Data c4Parc ((1 : ℕ) : ℚ) = [] ∧
    np_mean_cols (selectCols c4Data c4Parc 2) 0 = 7 ∧
    (ts_ctx c4Data c4Parc).get? 1
      ≠ some (np_mean_cols (selectCols c4Data c4Parc 2)) := by
  have hsel : selectCols c4Data c4Parc 2 = [fun _ => (7 : ℚ)] := rfl
  refine ⟨rfl, rfl, rfl, ?_, ?_⟩
  · rw [hsel]
    norm_num [np_mean_cols]
  · intro h
    have h0 : np_mean_cols (selectCols c4Data c4Parc ((1 : ℕ) : ℚ)) (0 : Fin 1)
        = np_mean_cols (selectCols c4Data c4Parc 2) (0 : Fin 1) :=
      congrFun (Option.some.inj h) 0
    have hsel1 : selectCols c4Data c4Parc ((1 : ℕ) : ℚ) = [] := rfl
    rw [hsel, hsel1] at h0
    norm_num [np_mean_cols] at h0

/-- C4 amended: when the unique labels are exactly the contiguous range
0..K-1 (so the loop index coincides with the unique label value), each
regional column equals the per-timepoint mean of exactly the columns
carrying that unique label, and a singleton label group passes through
exactly. -/
theorem c4_amended {T : ℕ} (K : ℕ) (Data : Mat T) (parc : List ℚ)
    (h : np_unique parc = List.map (fun n : ℕ => (n : ℚ)) (List.range K))
    (lab : ℕ) (v : ℚ) (hv : (np_unique parc).get? lab = some v) :
    (ts_ctx Data parc).get? lab = some (np_mean_cols (selectCols Data parc v)) ∧
    ∀ c : Col T, selectCols Data parc v = [c] →
      np_mean_cols (selectCols Data parc v) = c := by
  have hlen : (np_unique parc).length = K := by
    rw [h, List.length_map, List.length_range]
  have hlab : lab < K := by
    rcases List.get?_eq_some.mp hv with ⟨hl, -⟩
    omega
  have hvv : v = (lab : ℚ) := by
    rw [h, List.get?_map, List.get?_range hlab] at hv
    simpa using hv.symm
  constructor
  · unfold ts_ctx
    rw [hlen, List.get?_map, List.get?_range hlab, hvv]
    rfl
  · intro c hc
    rw [hc]
    funext i
    simp [np_mean_cols]

/-- Witness for the amended C4 at a concrete contiguous parcellation. -/
theorem c4_witness :
    (ts_ctx w4Data w4Parc).get? 1
      = some (np_mean_cols (selectCols w4Data w4Parc 1)) :=
  (c4_amended 2 w4Data w4Parc (by decide) 1 1 (by decide)).1

/-- C1: the priority table fails in the no-spike rows. With no spike file
and performNSR set (the string "1" that sys.argv delivers), the source
compares the string flag against the integer 1, so the design collapses to
the bare intercept instead of the claimed intercept, dof, wm, csf set, and
the data is returned unfitted; the same happens for the GSR row. -/
theorem c1_string_int_flag_bug :
    designOf "" (PyVal.str "1") (PyVal.str "0") ([] : Mat 1) c1Dof c1Wm c1Csf c1Gs
      = ones 1 ∧
    designOf "" (PyVal.str "1") (PyVal.str "0") ([] : Mat 1) c1Dof c1Wm c1Csf c1Gs
      ≠ ones 1 ++ c1Dof ++ c1Wm ++ c1Csf ∧
    designOf "" (PyVal.str "0") (PyVal.str "1") ([] : Mat 1) c1Dof c1Wm c1Csf c1Gs
      = ones 1 ∧
    designOf "" (PyVal.str "0") (PyVal.str "1") ([] : Mat 1) c1Dof c1Wm c1Csf c1Gs
      ≠ ones 1 ++ c1Dof ++ c1Wm ++ c1Csf ++ c1Gs ∧
    get_regressed_data "" c1Data (PyVal.str "1") (PyVal.str "0")
      [] c1Dof c1Wm c1Csf c1Gs (fun _ _ => [[9, 9, 9, 9]]) = c1Data := by
  refine ⟨rfl, by decide, rfl, by decide, rfl⟩

/-- C2: with an empty spike-file path, get_regressed_data returns its
input unchanged for every pair of string-valued flags, because the
no-spike branch compares the string flags against the integer 1 and
always falls through to the intercept-only model. -/
theorem c2_no_spike_string_flags_identity {T : ℕ} (Data spike dof wm csf gs : Mat T)
    (s1 s2 : String) (fit : Mat T → Mat T → List (List ℚ)) :
    get_regressed_data "" Data (PyVal.str s1) (PyVal.str s2) spike dof wm csf gs fit
      = Data := by
  unfold get_regressed_data designOf assembleDesign
  simp [pyEq]

/-- C6: whenever the assembled design matrix equals the bare intercept
column, get_regressed_data takes the explicit check_arrays branch that
skips the fit and returns the input unchanged, independently of the
fitter. -/
theorem c6_intercept_only_identity {T : ℕ} (x_spike : String) (Data : Mat T)
    (performNSR performGSR : PyVal) (spike dof wm csf gs : Mat T)
    (fit : Mat T → Mat T → List (List ℚ))
    (h : designOf x_spike performNSR performGSR spike dof wm csf gs = ones T) :
    get_regressed_data x_spike Data performNSR performGSR spike dof wm csf gs fit
      = Data := by
  unfold get_regressed_data
  simp [h]

/-- Witness for C6 at a concrete input: no spike file and both flags the
string "0" yield the intercept-only design, and the concrete data column
comes back unchanged. -/
theorem c6_witness :
    get_regressed_data "" ([fun _ => 5] : Mat 1) (PyVal.str "0") (PyVal.str "0")
      [] [] [] [] [] (fun _ _ => []) = [fun _ => 5] :=
  c6_intercept_only_identity "" [fun _ => 5] (PyVal.str "0") (PyVal.str "0")
    [] [] [] [] [] (fun _ _ => []) rfl

/-- An entry already zero stays zero through one row-column clearing. -/
theorem zeroRowCol_preserve {n : ℕ} (M : SqMat n) (j : ℕ) (r c : Fin n)
    (h : M r c = 0) : zeroRowCol M j r c = 0 := by
  unfold zeroRowCol
  split <;> simp [h]

/-- An entry already zero stays zero through the whole exclusion loop. -/
theorem apply_exclusion_preserve {n : ℕ} (excl : List ℕ) (n_sctx : ℕ) (r c : Fin n) :
    ∀ M : SqMat n, M r c = 0 → apply_exclusion excl n_sctx M r c = 0 := by
  induction excl with
  | nil => intro M h; exact h
  | cons a tl ih =>
    intro M h
    exact ih (zeroRowCol M (a + n_sctx)) (zeroRowCol_preserve M (a + n_sctx) r c h)

/-- Any entry in a cleared row or column is zero after the loop. -/
theorem apply_exclusion_hits {n : ℕ} (excl : List ℕ) (n_sctx : ℕ) (i : ℕ)
    (hi : i ∈ excl) (r c : Fin n)
    (hrc : (r : ℕ) = i + n_sctx ∨ (c : ℕ) = i + n_sctx) :
    ∀ M : SqMat n, apply_exclusion excl n_sctx M r c = 0 := by
  induction excl with
  | nil => cases hi
  | cons a tl ih =>
    intro M
    rcases List.mem_cons.mp hi with rfl | hmem
    · have hz : zeroRowCol M (i + n_sctx) r c = 0 := by
        unfold zeroRowCol
        rw [if_pos hrc]
      exact apply_exclusion_preserve tl n_sctx r c _ hz
    · exact ih hmem _

/-- C7: for every missing cerebellar index i in the computed missing set,
the persisted matrix has row and column i + n_sctx identically zero, for
any correlation matrix and any subcortical offset; the conte69 and native
loops both apply exactly this post-processing. -/
theorem c7_missing_zero_row_col {n : ℕ} (roiList : List ℤ) (n_sctx : ℕ)
    (M : SqMat n) (i : ℕ) (hi : i ∈ missing_elements roiList) (r c : Fin n)
    (hrc : (r : ℕ) = i + n_sctx ∨ (c : ℕ) = i + n_sctx) :
    postprocess (ExcludeLabels.missing (missing_elements roiList)) n_sctx M r c = 0 := by
  show np_triu (apply_exclusion (missing_elements roiList) n_sctx M) r c = 0
  unfold np_triu
  split
  · exact apply_exclusion_hits (missing_elements roiList) n_sctx i hi r c hrc M
  · rfl

/-- Witness for C7: with no parsed labels, index 0 is missing, and entry
(0, 0) of the post-processed matrix is zero although the input entry was
5. -/
theorem c7_witness :
    postprocess (ExcludeLabels.missing (missing_elements [])) 0
      (fun _ _ => (5 : ℚ) : SqMat 1) 0 0 = 0 :=
  c7_missing_zero_row_col [] 0 (fun _ _ => (5 : ℚ)) 0 (by decide) 0 0 (Or.inl rfl)

/-- C8: every persisted connectivity matrix is upper-triangular: both
branches of the post-processing end in np.triu, so every entry strictly
below the main diagonal is zero, also when no cerebellar region is
missing. -/
theorem c8_upper_triangular {n : ℕ} (excl : ExcludeLabels) (n_sctx : ℕ)
    (M : SqMat n) (r c : Fin n) (h : (c : ℕ) < (r : ℕ)) :
    postprocess excl n_sctx M r c = 0 := by
  have hle : ¬ (r : ℕ) ≤ (c : ℕ) := by omega
  cases excl <;> simp [postprocess, np_triu, hle]

/-- Witness for C8 at the nan-sentinel branch with a constant matrix. -/
theorem c8_witness :
    postprocess ExcludeLabels.noneMissing 0 (fun _ _ => (1 : ℚ) : SqMat 2) 1 0 = 0 :=
  c8_upper_triangular ExcludeLabels.noneMissing 0 (fun _ _ => (1 : ℚ)) 1 0 (by decide)

/-- C9: parcellation-specific failures are recoverable. In the conte69
loop every supported parcellation still produces its output and the
unsupported name never appears among the outputs; in the native loop
every length-matched parcellation still produces its output and every
output comes from a length-matched parcellation. -/
theorem c9_skip_recoverable {α : Type} (compute computeN : String → α)
    (parcs : List String) (annots : List (String × ℕ)) (natCols : ℕ) :
    (∀ p ∈ parcs, p ≠ "aparc-a2009s_conte69" →
      (p, compute p) ∈ conte69_outputs compute parcs) ∧
    (∀ a ∈ conte69_outputs compute parcs, a.1 ≠ "aparc-a2009s_conte69") ∧
    (∀ pa ∈ annots, natCols = pa.2 →
      (pa.1, computeN pa.1) ∈ native_outputs natCols computeN annots) ∧
    (∀ a ∈ native_outputs natCols computeN annots,
      ∃ pa ∈ annots, natCols = pa.2 ∧ a = (pa.1, computeN pa.1)) := by
  refine ⟨?_, ?_, ?_, ?_⟩
  · intro p hp hne
    exact List.mem_filterMap.mpr ⟨p, hp, by rw [if_neg hne]⟩
  · intro a ha
    rcases List.mem_filterMap.mp ha with ⟨q, -, hf⟩
    by_cases hq : q = "aparc-a2009s_conte69"
    · rw [if_pos hq] at hf
      cases hf
    · rw [if_neg hq] at hf
      cases hf
      exact hq
  · intro pa hpa heq
    exact List.mem_filterMap.mpr ⟨pa, hpa, by rw [if_neg (by omega)]⟩
  · intro a ha
    rcases List.mem_filterMap.mp ha with ⟨pa, hpa, hf⟩
    by_cases hq : natCols = pa.2
    · rw [if_neg (by omega)] at hf
      exact ⟨pa, hpa, hq, (Option.some.inj hf).symm⟩
    · rw [if_pos hq] at hf
      cases hf

/-- Witness for C9: a supported parcellation next to the unsupported one
still produces its output, and a matched native annotation next to a
mismatched one still produces its output. -/
theorem c9_witness :
    ("schaefer-100_conte69", 3) ∈
      conte69_outputs (fun _ => 3)
        ["aparc-a2009s_conte69", "schaefer-100_conte69"] :=
  (c9_skip_recoverable (fun _ => 3) (fun _ => 3)
    ["aparc-a2009s_conte69", "schaefer-100_conte69"] [] 0).1
    "schaefer-100_conte69" (by decide) (by decide)

/-- C10: on an empty subcortical file, np.loadtxt returns shape (0,),
which is a truthy tuple, so the source skips its own empty-file
diagnostic and crashes on sctx.shape[1] with IndexError; the diagnostic
branch is instead reached by a non-empty file holding a single scalar. -/
theorem c10_empty_file_bug :
    sctx_check (loadtxt_shape 0 0) = SctxOutcome.indexErrorCrash ∧
    sctx_check (loadtxt_shape 0 0) ≠ SctxOutcome.diagnosticExit ∧
    sctx_check (loadtxt_shape 1 1) = SctxOutcome.diagnosticExit ∧
    sctx_check (loadtxt_shape 100 16) = SctxOutcome.proceed 16 := by
  refine ⟨rfl, by decide, rfl, rfl⟩

/-- The mean-centered column sums to zero. -/
theorem colSum_center {T : ℕ} (x : Col T) : colSum (center x) = 0 := by
  rcases Nat.eq_zero_or_pos T with hT | hT
  · subst hT
    simp [colSum]
  · have hT0 : (T : ℚ) ≠ 0 := Nat.cast_ne_zero.mpr hT.ne'
    unfold colSum center colMean colSum
    rw [Finset.sum_sub_distrib, Finset.sum_const, Finset.card_univ, Fintype.card_fin,
      nsmul_eq_mul]
    field_simp

/-- Dot product against the all-ones column is the column sum. -/
theorem dot_ones {T : ℕ} (y : Col T) : dot (onesCol T) y = colSum y := by
  simp [dot, onesCol, colSum]

/-- The all-ones column sums to the timepoint count. -/
theorem colSum_ones {T : ℕ} : colSum (onesCol T) = (T : ℚ) := by
  simp [colSum, onesCol]

/-- Split a dot product along the mean decomposition of its left factor. -/
theorem dot_split_left {T : ℕ} (x y : Col T) :
    dot x y = dot (center x) y + colMean x * colSum y := by
  unfold dot colSum
  rw [Finset.mul_sum, ← Finset.sum_add_distrib]
  refine Finset.sum_congr rfl fun i _ => ?_
  simp only [center]
  ring

/-- A centered column is orthogonal to constant shifts of the right
factor. -/
theorem dot_center_right {T : ℕ} (x y : Col T) :
    dot (center x) y = dot (center x) (center y) := by
  unfold dot
  have h : ∑ i, colMean y * center x i = 0 := by
    rw [← Finset.mul_sum]
    have hc := colSum_center x
    unfold colSum at hc
    rw [hc, mul_zero]
  calc (∑ i, center x i * y i)
      = ∑ i, (center x i * center y i + colMean y * center x i) := by
        refine Finset.sum_congr rfl fun i _ => ?_
        simp only [center]
        ring
    _ = (∑ i, center x i * center y i) + ∑ i, colMean y * center x i :=
        Finset.sum_add_distrib
    _ = ∑ i, center x i * center y i := by rw [h, add_zero]

/-- Dot product against a linear combination of columns expands to the
combination of the dot products. -/
theorem dot_lincomb {T : ℕ} (x : Col T) (row : List ℚ) :
    ∀ cols : Mat T,
      dot x (lincomb row cols)
        = (List.zipWith (fun c v => c * dot x v) row cols).sum := by
  induction row with
  | nil => intro cols; simp [lincomb, dot]
  | cons c cs ih =>
    intro cols
    cases cols with
    | nil => simp [lincomb, dot]
    | cons v vs =>
      have hstep : ∀ i, lincomb (c :: cs) (v :: vs) i = c * v i + lincomb cs vs i := by
        intro i
        simp [lincomb]
      calc dot x (lincomb (c :: cs) (v :: vs))
          = ∑ i, (x i * (c * v i) + x i * lincomb cs vs i) := by
            unfold dot
            refine Finset.sum_congr rfl fun i _ => ?_
            rw [hstep i]
            ring
        _ = c * dot x v + dot x (lincomb cs vs) := by
            rw [Finset.sum_add_distrib]
            unfold dot
            congr 1
            rw [Finset.mul_sum]
            exact Finset.sum_congr rfl fun i _ => by ring
        _ = (List.zipWith (fun c v => c * dot x v) (c :: cs) (v :: vs)).sum := by
            rw [List.zipWith_cons_cons, List.sum_cons, ih vs]

/-- Column sum of a linear combination of columns. -/
theorem colSum_lincomb {T : ℕ} (row : List ℚ) (cols : Mat T) :
    colSum (lincomb row cols)
      = (List.zipWith (fun c v => c * colSum v) row cols).sum := by
  rw [← dot_ones (lincomb row cols), dot_lincomb]
  simp only [dot_ones]

/-- Pointwise decomposition of a linear combination into its centered
part plus the combination of the column means. -/
theorem lincomb_center_split {T : ℕ} (row : List ℚ) :
    ∀ (cols : Mat T) (i : Fin T),
      lincomb row cols i
        = lincomb row (cols.map center) i
          + (List.zipWith (fun c v => c * colMean v) row cols).sum := by
  induction row with
  | nil => intro cols i; simp [lincomb]
  | cons c cs ih =>
    intro cols i
    cases cols with
    | nil => simp [lincomb]
    | cons v vs =>
      have h1 : lincomb (c :: cs) (v :: vs) i = c * v i + lincomb cs vs i := by
        simp [lincomb]
      have h2 : lincomb (c :: cs) ((v :: vs).map center) i
          = c * center v i + lincomb cs (vs.map center) i := by
        simp [lincomb]
      rw [h1, h2, List.zipWith_cons_cons, List.sum_cons, ih vs i]
      simp only [center]
      ring

/-- A zipWith of the constant-zero function sums to zero. -/
theorem sum_zipWith_zero {α β : Type} :
    ∀ (l1 : List α) (l2 : List β),
      (List.zipWith (fun _ _ => (0 : ℚ)) l1 l2).sum = 0 := by
  intro l1
  induction l1 with
  | nil => intro l2; simp
  | cons a tl ih =>
    intro l2
    cases l2 with
    | nil => simp
    | cons b tl2 => simp [ih tl2]

/-- Element extraction through zipWith. -/
theorem zipWith_get?_some {α β γ : Type} (f : α → β → γ) :
    ∀ (l1 : List α) (l2 : List β) (k : ℕ) (c : γ),
      (List.zipWith f l1 l2).get? k = some c →
        ∃ a b, l1.get? k = some a ∧ l2.get? k = some b ∧ c = f a b := by
  intro l1
  induction l1 with
  | nil =>
    intro l2 k c h
    simp at h
  | cons a tl ih =>
    intro l2 k c h
    cases l2 with
    | nil => simp at h
    | cons b tl2 =>
      cases k with
      | zero =>
        rw [List.zipWith_cons_cons] at h
        exact ⟨a, b, rfl, rfl, (Option.some.inj h).symm⟩
      | succ k =>
        rw [List.zipWith_cons_cons] at h
        simp only [List.get?_cons_succ] at h ⊢
        exact ih tl2 k c h

/-- Core mean-adjusted orthogonality: when the coefficient row solves the
centered normal equations, the raw residual column satisfies, against
every design column, the identity T times the dot product equals the
product of the column sums. -/
theorem resid_mean_identity {T : ℕ} (mdl : Mat T) (yk : Col T) (row : List ℚ)
    (hNE : ∀ x ∈ mdl,
      dot (center x) (fun i => center yk i - lincomb row (mdl.map center) i) = 0)
    (x : Col T) (hx : x ∈ mdl) :
    (T : ℚ) * dot x (fun i => yk i - lincomb row mdl i)
      = colSum x * colSum (fun i => yk i - lincomb row mdl i) := by
  have hS : ∃ S : ℚ, S = (List.zipWith (fun c v => c * colMean v) row mdl).sum :=
    ⟨_, rfl⟩
  obtain ⟨S, hS⟩ := hS
  have hrc : ∃ rc : Col T,
      rc = fun i => center yk i - lincomb row (mdl.map center) i := ⟨_, rfl⟩
  obtain ⟨rc, hrc⟩ := hrc
  have hdecomp : ∀ i, yk i - lincomb row mdl i = rc i + (colMean yk - S) := by
    intro i
    rw [hrc, hS]
    simp only [center]
    rw [lincomb_center_split row mdl i]
    ring
  have hsum_rc : colSum rc = 0 := by
    rw [hrc]
    unfold colSum
    rw [Finset.sum_sub_distrib]
    have h1 : (∑ i, center yk i) = 0 := by
      have hcc := colSum_center yk
      unfold colSum at hcc
      rw [hcc]
    have h2 : (∑ i, lincomb row (mdl.map center) i) = 0 := by
      have hcl := colSum_lincomb row (mdl.map center)
      rw [List.zipWith_map_right] at hcl
      simp only [colSum_center, mul_zero] at hcl
      rw [sum_zipWith_zero row mdl] at hcl
      unfold colSum at hcl
      exact hcl
    rw [h1, h2, sub_zero]
  have hsum_rk : colSum (fun i => yk i - lincomb row mdl i)
      = (T : ℚ) * (colMean yk - S) := by
    unfold colSum
    calc (∑ i, (yk i - lincomb row mdl i))
        = ∑ i, (rc i + (colMean yk - S)) :=
          Finset.sum_congr rfl fun i _ => by rw [hdecomp i]
      _ = (∑ i, rc i) + ∑ _i : Fin T, (colMean yk - S) := Finset.sum_add_distrib
      _ = (T : ℚ) * (colMean yk - S) := by
          have h0 : (∑ i, rc i) = 0 := by
            have := hsum_rc
            unfold colSum at this
            exact this
          rw [h0, zero_add, Finset.sum_const, Finset.card_univ, Fintype.card_fin,
            nsmul_eq_mul]
  have hx0 : dot x rc = 0 := by
    rw [dot_split_left x rc, hsum_rc, mul_zero, add_zero, hrc]
    exact hNE x hx
  have hdot : dot x (fun i => yk i - lincomb row mdl i)
      = (colMean yk - S) * colSum x := by
    unfold dot
    calc (∑ i, x i * (yk i - lincomb row mdl i))
        = ∑ i, (x i * rc i + x i * (colMean yk - S)) :=
          Finset.sum_congr rfl fun i _ => by rw [hdecomp i]; ring
      _ = (∑ i, x i * rc i) + ∑ i, x i * (colMean yk - S) := Finset.sum_add_distrib
      _ = (colMean yk - S) * colSum x := by
          have h0 : (∑ i, x i * rc i) = 0 := by
            have := hx0
            unfold dot at this
            exact this
          rw [h0, zero_add, ← Finset.sum_mul]
          unfold colSum
          ring
  rw [hdot, hsum_rk]
  ring

/-- C5 amended: for any flags, spike file and data, when the fitter
satisfies the sklearn specification, every column rk of the matrix
returned by get_regressed_data satisfies, against every column x of the
assembled design matrix, the mean-adjusted orthogonality identity
T * (x . rk) = (sum x) * (sum rk); the raw dot product vanishes only when
the fitted intercept term is zero. -/
theorem c5_amended {T : ℕ} (x_spike : String) (Data : Mat T)
    (performNSR performGSR : PyVal) (spike dof wm csf gs : Mat T)
    (fit : Mat T → Mat T → List (List ℚ))
    (hfit : IsSklearnFit (designOf x_spike performNSR performGSR spike dof wm csf gs)
      Data
      (fit (designOf x_spike performNSR performGSR spike dof wm csf gs) Data))
    (x : Col T)
    (hx : x ∈ designOf x_spike performNSR performGSR spike dof wm csf gs)
    (k : ℕ) (rk : Col T)
    (hrk : (get_regressed_data x_spike Data performNSR performGSR
      spike dof wm csf gs fit).get? k = some rk) :
    (T : ℚ) * dot x rk = colSum x * colSum rk := by
  by_cases hdeg :
      designOf x_spike performNSR performGSR spike dof wm csf gs = ones T
  · unfold get_regressed_data at hrk
    rw [if_pos hdeg] at hrk
    rw [hdeg] at hx
    have hxx : x = onesCol T := by simpa [ones] using hx
    subst hxx
    rw [dot_ones, colSum_ones]
  · unfold get_regressed_data at hrk
    rw [if_neg hdeg] at hrk
    unfold matSub at hrk
    obtain ⟨yk, z, hyk, hz, hrkeq⟩ := zipWith_get?_some _ _ _ _ _ hrk
    unfold matMulCoefT at hz
    rw [List.get?_map] at hz
    obtain ⟨row, hrow, hzrow⟩ := Option.map_eq_some'.mp hz
    have hNE := (hfit.2 k row yk hrow hyk).1
    have hfinal := resid_mean_identity
      (designOf x_spike performNSR performGSR spike dof wm csf gs) yk row hNE x hx
    rw [hrkeq, ← hzrow]
    exact hfinal

/-- The concrete fitter output satisfies the sklearn specification on
the concrete design and data. -/
theorem c5fit_holds : IsSklearnFit c5Mdl c5Data (c5Fit c5Mdl c5Data) := by
  constructor
  · rfl
  · intro k row yk hrow hyk
    cases k with
    | zero =>
      have hrow0 : row = [0, 0] := (Option.some.inj hrow).symm
      have hyk0 : yk = fun _ => (1 : ℚ) := (Option.some.inj hyk).symm
      subst hrow0
      subst hyk0
      have hzero : (fun i => center (fun _ => (1 : ℚ)) i
          - lincomb [0, 0] (c5Mdl.map center) i) = fun _ => (0 : ℚ) := by
        funext i
        have hc : center (fun _ => (1 : ℚ)) i = 0 := by
          simp [center, colMean, colSum, Fin.sum_univ_two]
        have hl : lincomb [0, 0] (c5Mdl.map center) i = 0 := by
          have hm : c5Mdl.map center = [center (onesCol 2), center c5SpikeCol] := rfl
          rw [hm]
          simp [lincomb]
        rw [hc, hl, sub_zero]
      constructor
      · intro x hx
        rw [hzero]
        simp [dot]
      · refine ⟨fun _ => 0, ?_⟩
        have hm : c5Mdl = [onesCol 2, c5SpikeCol] := rfl
        rw [hm]
        simp [dot]
    | succ k =>
      exfalso
      have : (c5Fit c5Mdl c5Data).get? (k + 1) = none := by
        cases k <;> rfl
      rw [this] at hrow
      cases hrow

/-- C5 counterexample: the spike-only model is non-degenerate, the
concrete fitter satisfies the sklearn specification, yet the intercept
design column has dot product 2 with the returned residual column,
refuting the claimed orthogonality: the source never subtracts the
fitted intercept, so residual column means survive. -/
theorem c5_counterexample :
    c5Mdl ≠ ones 2 ∧
    IsSklearnFit c5Mdl c5Data (c5Fit c5Mdl c5Data) ∧
    onesCol 2 ∈ c5Mdl ∧
    (get_regressed_data "spikeRegressors_FD.1D" c5Data (PyVal.str "0")
      (PyVal.str "0") c5Spike c5Zero c5Zero c5Zero c5Zero c5Fit).get? 0
      = some c5Rk ∧
    dot (onesCol 2) c5Rk ≠ 0 := by
  refine ⟨by decide, c5fit_holds, by decide, rfl, ?_⟩
  have hm : c5Mdl = [onesCol 2, c5SpikeCol] := rfl
  have hrk : ∀ i, c5Rk i = 1 := by
    intro i
    show c5Data.headI i - lincomb [0, 0] c5Mdl i = 1
    rw [hm]
    simp [lincomb, c5Data]
  have : dot (onesCol 2) c5Rk = 2 := by
    unfold dot
    rw [Fin.sum_univ_two, hrk 0, hrk 1]
    norm_num [onesCol]
  rw [this]
  norm_num

/-- Witness for the amended C5 at the concrete spike-only input. -/
theorem c5_witness :
    ((2 : ℕ) : ℚ) * dot (onesCol 2) c5Rk
      = colSum (onesCol 2) * colSum c5Rk :=
  c5_amended "spikeRegressors_FD.1D" c5Data (PyVal.str "0") (PyVal.str "0")
    c5Spike c5Zero c5Zero c5Zero c5Zero c5Fit c5fit_holds
    (onesCol 2) (by decide) 0 c5Rk rfl

end FC
